import Mathlib

/-!
Verification development for the seat-assignment program (`assign_seats.py`).

The source is embedded shallowly:

* Python's `dict[str, list[str]]` of student requests becomes an
  insertion-ordered association list `List (String × List String)`; the seat
  set becomes a `List String` (the order in which Python enumerates the set is
  arbitrary, so theorems quantify over it, with a `Nodup` hypothesis where the
  claim assumes a genuine set).
* `random.choice(l)` is modelled by drawing a natural number from a stream
  `R : Nat → Nat` at the current time `t` and indexing `l` at `R t % l.length`;
  as `R t` ranges over all naturals this covers exactly the elements of `l`,
  which is the support of the uniform choice.  The time counter is threaded
  through both phases so successive draws consume successive stream values.
* The Phase-1 `while` loop is an iteration of a step function `phase1Step`
  (which is the loop body, and the identity once the loop guard fails),
  run for `|students|` steps — enough, since every genuine iteration removes
  at least one student.
* A second, `Option`-valued copy of the engine (`assign_seatsE`) makes each
  Python operation that can raise (`random.choice` on an empty list,
  `list.remove` of a missing element, `dict[key]` on a missing key) return
  `none` in exactly that situation, so "the engine never raises" is the
  theorem that the checked run always returns `some`.
-/

/-- The whitespace characters stripped by Python's `str.strip()` with no
argument (restricted to the ASCII range, which is all the seat files use). -/
def isPySpace (c : Char) : Bool :=
  c = ' ' || c = '\t' || c = '\n' || c = '\r' || c = '\x0b' || c = '\x0c'

/-- Python `str.strip()`: remove leading and trailing whitespace. -/
def pyStrip (s : String) : String :=
  String.mk (((s.data.dropWhile isPySpace).reverse.dropWhile isPySpace).reverse)

/-- Python `set.add` on a set modelled as a duplicate-free list. -/
def setInsert (s : List String) (x : String) : List String :=
  if x ∈ s then s else s ++ [x]

/-- `load_available_seats`, on the list of lines of the file: strip each line
and add it to the set. -/
def load_available_seats (lines : List String) : List String :=
  lines.foldl (fun acc l => setInsert acc (pyStrip l)) []

/-- Python dict read `d[k]` (first binding wins, as in a dict where keys are
unique). -/
def dictGet : List (String × List String) → String → Option (List String)
  | [], _ => none
  | p :: rest, k => if p.1 = k then some p.2 else dictGet rest k

/-- Python dict write `d[k] = v` on an insertion-ordered association list:
updating an existing key keeps its position, a new key is appended. -/
def dictInsert (d : List (String × String)) (k v : String) : List (String × String) :=
  if k ∈ d.map Prod.fst then
    d.map (fun p => if p.1 = k then (k, v) else p)
  else d ++ [(k, v)]

/-- The `for seat in student_requests[student]` scan of `assign_seats`:
the first preferred seat still present in the unassigned-seat list. -/
def selectSeat (prefs seats : List String) : Option String :=
  prefs.find? (fun s => decide (s ∈ seats))

/-- The mutable locals of `assign_seats` during Phase 1: `seat_assignments`,
`seats`, `students`, `holding`, plus the position `t` in the random stream. -/
structure S1 where
  asg : List (String × String)
  seats : List String
  students : List String
  holding : List String
  t : Nat
deriving DecidableEq

/-- One iteration of the Phase-1 `while seats and students:` loop
(the identity when the guard fails). -/
def phase1Step (reqs : List (String × List String)) (R : Nat → Nat) (st : S1) : S1 :=
  if st.seats = [] ∨ st.students = [] then st
  else
    -- student = random.choice(students)
    let student := st.students.getD (R st.t % st.students.length) ""
    match selectSeat ((dictGet reqs student).getD []) st.seats with
    | some seat =>
        -- seat_assignments[seat] = student; seats.remove(seat); students.remove(student)
        let students1 := st.students.erase student
        -- the `if student in students:` check that follows the for loop
        if student ∈ students1 then
          { asg := dictInsert st.asg seat student, seats := st.seats.erase seat,
            students := students1.erase student, holding := st.holding ++ [student],
            t := st.t + 1 }
        else
          { asg := dictInsert st.asg seat student, seats := st.seats.erase seat,
            students := students1, holding := st.holding, t := st.t + 1 }
    | none =>
        -- no preferred seat: `if student in students:` holding.append(student);
        -- students.remove(student)
        if student ∈ st.students then
          { asg := st.asg, seats := st.seats, students := st.students.erase student,
            holding := st.holding ++ [student], t := st.t + 1 }
        else st

/-- The Phase-1 loop, iterated `fuel` times (each genuine iteration removes at
least one student, so `fuel = |students|` runs the loop to completion). -/
def phase1 (reqs : List (String × List String)) (R : Nat → Nat) : Nat → S1 → S1
  | 0, st => st
  | fuel + 1, st => phase1 reqs R fuel (phase1Step reqs R st)

/-- The locals still live during Phase 2. -/
structure S2 where
  asg : List (String × String)
  seats : List String
  t : Nat
deriving DecidableEq

/-- Phase 2: `for student in holding:` — if seats remain, give the student a
random remaining seat; otherwise the student is skipped (only a warning is
logged). -/
def phase2 (R : Nat → Nat) : List String → S2 → S2
  | [], st => st
  | student :: rest, st =>
    if st.seats = [] then phase2 R rest st
    else
      let seat := st.seats.getD (R st.t % st.seats.length) ""
      phase2 R rest
        { asg := dictInsert st.asg seat student, seats := st.seats.erase seat,
          t := st.t + 1 }

/-- `assign_seats(available_seats, student_requests)`, for one choice of the
random stream `R` and of the enumeration order of the seat set. -/
def assign_seats (available_seats : List String)
    (student_requests : List (String × List String)) (R : Nat → Nat) :
    List (String × String) :=
  -- seats = list(available_seats.copy()); students = list(student_requests.keys())
  let students := student_requests.map Prod.fst
  let st1 := phase1 student_requests R students.length
    { asg := [], seats := available_seats, students := students, holding := [], t := 0 }
  -- if students: holding += students  (appending an empty list changes nothing)
  let holding := st1.holding ++ st1.students
  (phase2 R holding { asg := st1.asg, seats := st1.seats, t := st1.t }).asg

/-- The keys of an assignment (the seats). -/
def keysOf (d : List (String × String)) : List String := d.map Prod.fst

/-- The values of an assignment (the students). -/
def valsOf (d : List (String × String)) : List String := d.map Prod.snd

/-! ### Basic lemmas about the building blocks -/

/-- A uniform random choice from a non-empty list is a member of the list. -/
theorem choose_mem (l : List String) (h : l ≠ []) (k : Nat) :
    l.getD (k % l.length) "" ∈ l := by
  have hlt : k % l.length < l.length := Nat.mod_lt _ (List.length_pos.mpr h)
  rw [List.getD_eq_getElem?_getD, List.getElem?_eq_getElem hlt]
  simp only [Option.getD_some]
  exact List.getElem_mem hlt

/-- The seat chosen by the preference scan is one of the unassigned seats. -/
theorem selectSeat_mem_seats {prefs seats : List String} {seat : String}
    (h : selectSeat prefs seats = some seat) : seat ∈ seats := by
  have := List.find?_some h
  simpa using this

/-- The seat chosen by the preference scan occurs in the preference list, and
every preference ranked before it is not among the unassigned seats. -/
theorem selectSeat_first {prefs seats : List String} {seat : String}
    (h : selectSeat prefs seats = some seat) :
    ∃ l1 l2, prefs = l1 ++ seat :: l2 ∧ ∀ p ∈ l1, p ∉ seats := by
  induction prefs with
  | nil => simp [selectSeat] at h
  | cons q rest ih =>
    by_cases hq : q ∈ seats
    · have hqe : seat = q := by
        simp [selectSeat, List.find?, hq] at h
        exact h.symm
      exact ⟨[], rest, by simp [hqe], by simp⟩
    · have h2 : selectSeat rest seats = some seat := by
        simpa [selectSeat, List.find?, hq] using h
      obtain ⟨l1, l2, hsplit, hnone⟩ := ih h2
      exact ⟨q :: l1, l2, by simp [hsplit], by
        intro p hp
        rcases List.mem_cons.mp hp with rfl | hp2
        · exact hq
        · exact hnone p hp2⟩

/-- A scan that returns no seat means no preferred seat is unassigned. -/
theorem selectSeat_none {prefs seats : List String}
    (h : selectSeat prefs seats = none) : ∀ p ∈ prefs, p ∉ seats := by
  intro p hp
  have := List.find?_eq_none.mp h p hp
  simpa using this

/-- A key present among the keys of a dict has a binding. -/
theorem dictGet_eq_some_of_mem {reqs : List (String × List String)} {k : String}
    (h : k ∈ reqs.map Prod.fst) : ∃ v, dictGet reqs k = some v := by
  induction reqs with
  | nil => simp at h
  | cons p rest ih =>
    by_cases hk : p.1 = k
    · exact ⟨p.2, by simp [dictGet, hk]⟩
    · have : k ∈ rest.map Prod.fst := by
        rcases List.mem_map.mp h with ⟨q, hq, hqk⟩
        rcases List.mem_cons.mp hq with rfl | hq2
        · exact absurd hqk hk
        · exact List.mem_map.mpr ⟨q, hq2, hqk⟩
      obtain ⟨v, hv⟩ := ih this
      exact ⟨v, by simp [dictGet, hk, hv]⟩

/-- Writing a fresh key into a dict appends the new binding. -/
theorem dictInsert_of_not_mem {d : List (String × String)} {k v : String}
    (h : k ∉ keysOf d) : dictInsert d k v = d ++ [(k, v)] := by
  unfold dictInsert
  rw [if_neg (show k ∉ d.map Prod.fst from h)]

/-- Every binding after a dict write is an old binding or the written pair. -/
theorem dictInsert_mem {d : List (String × String)} {k v : String} {e : String × String}
    (h : e ∈ dictInsert d k v) : e ∈ d ∨ e = (k, v) := by
  unfold dictInsert at h
  split at h
  · rcases List.mem_map.mp h with ⟨p, hp, hpe⟩
    by_cases hk : p.1 = k
    · rw [if_pos hk] at hpe
      exact Or.inr hpe.symm
    · rw [if_neg hk] at hpe
      exact Or.inl (hpe ▸ hp)
  · rcases List.mem_append.mp h with h1 | h1
    · exact Or.inl h1
    · exact Or.inr (by simpa using h1)

@[simp]
theorem keysOf_append (d1 d2 : List (String × String)) :
    keysOf (d1 ++ d2) = keysOf d1 ++ keysOf d2 := List.map_append _ _ _

@[simp]
theorem valsOf_append (d1 d2 : List (String × String)) :
    valsOf (d1 ++ d2) = valsOf d1 ++ valsOf d2 := List.map_append _ _ _

@[simp]
theorem keysOf_single (k v : String) : keysOf [(k, v)] = [k] := rfl

@[simp]
theorem valsOf_single (k v : String) : valsOf [(k, v)] = [v] := rfl

/-- The well-formedness invariant the Phase-1 loop maintains: the working
collections are duplicate-free, unassigned seats are not yet assignment keys,
the assignment has no repeated seat and no repeated student, and no student
occurs both in a working collection and among the assigned values. -/
structure Inv1 (st : S1) : Prop where
  seatsNd : st.seats.Nodup
  studentsNd : st.students.Nodup
  holdingNd : st.holding.Nodup
  seatsKeys : ∀ s ∈ st.seats, s ∉ keysOf st.asg
  keysNd : (keysOf st.asg).Nodup
  valsNd : (valsOf st.asg).Nodup
  studentsHolding : ∀ x ∈ st.students, x ∉ st.holding
  studentsVals : ∀ x ∈ st.students, x ∉ valsOf st.asg
  holdingVals : ∀ x ∈ st.holding, x ∉ valsOf st.asg

theorem phase1Step_inv {reqs : List (String × List String)} {R : Nat → Nat} {st : S1}
    (hinv : Inv1 st) : Inv1 (phase1Step reqs R st) := by
  unfold phase1Step
  split
  · exact hinv
  rename_i hguard
  push_neg at hguard
  obtain ⟨hse, hst⟩ := hguard
  have hmem : st.students.getD (R st.t % st.students.length) "" ∈ st.students :=
    choose_mem _ hst _
  dsimp only
  split
  · rename_i seat hsel
    have hseat : seat ∈ st.seats := selectSeat_mem_seats hsel
    have hkfresh : seat ∉ keysOf st.asg := hinv.seatsKeys seat hseat
    rw [if_neg hinv.studentsNd.not_mem_erase]
    rw [dictInsert_of_not_mem hkfresh]
    refine ⟨hinv.seatsNd.erase _, hinv.studentsNd.erase _, hinv.holdingNd, ?_, ?_, ?_, ?_, ?_, ?_⟩
    · intro s hs
      have hs1 : s ∈ st.seats := List.mem_of_mem_erase hs
      have hsne : s ≠ seat := (hinv.seatsNd.mem_erase_iff.mp hs).1
      simp only [keysOf_append, keysOf_single, List.mem_append, List.mem_singleton]
      exact fun hc => hc.elim (hinv.seatsKeys s hs1) hsne
    · simp only [keysOf_append, keysOf_single, List.nodup_append, List.nodup_singleton,
        List.disjoint_singleton]
      exact ⟨hinv.keysNd, trivial, hkfresh⟩
    · simp only [valsOf_append, valsOf_single, List.nodup_append, List.nodup_singleton,
        List.disjoint_singleton]
      exact ⟨hinv.valsNd, trivial, hinv.studentsVals _ hmem⟩
    · intro x hx
      exact hinv.studentsHolding x (List.mem_of_mem_erase hx)
    · intro x hx
      have hx1 := List.mem_of_mem_erase hx
      have hxne := (hinv.studentsNd.mem_erase_iff.mp hx).1
      simp only [valsOf_append, valsOf_single, List.mem_append, List.mem_singleton]
      exact fun hc => hc.elim (hinv.studentsVals x hx1) hxne
    · intro x hx
      have hxne : x ≠ st.students.getD (R st.t % st.students.length) "" :=
        fun hc => hinv.studentsHolding _ hmem (hc ▸ hx)
      simp only [valsOf_append, valsOf_single, List.mem_append, List.mem_singleton]
      exact fun hc => hc.elim (hinv.holdingVals x hx) hxne
  · rw [if_pos hmem]
    refine ⟨hinv.seatsNd, hinv.studentsNd.erase _, ?_, hinv.seatsKeys, hinv.keysNd,
      hinv.valsNd, ?_, ?_, ?_⟩
    · simp only [List.nodup_append, List.nodup_singleton, List.disjoint_singleton]
      exact ⟨hinv.holdingNd, trivial, fun hc => hinv.studentsHolding _ hmem hc⟩
    · intro x hx
      have hx1 := List.mem_of_mem_erase hx
      have hxne := (hinv.studentsNd.mem_erase_iff.mp hx).1
      simp only [List.mem_append, List.mem_singleton]
      exact fun hc => hc.elim (hinv.studentsHolding x hx1) hxne
    · intro x hx
      exact hinv.studentsVals x (List.mem_of_mem_erase hx)
    · intro x hx
      rcases List.mem_append.mp hx with hx1 | hx1
      · exact hinv.holdingVals x hx1
      · have hxe : x = st.students.getD (R st.t % st.students.length) "" := by
          simpa using hx1
        rw [hxe]
        exact hinv.studentsVals _ hmem

theorem phase1Step_count {reqs : List (String × List String)} {R : Nat → Nat} {st : S1}
    (hinv : Inv1 st) :
    (phase1Step reqs R st).asg.length + (phase1Step reqs R st).seats.length =
      st.asg.length + st.seats.length ∧
    (phase1Step reqs R st).asg.length + ((phase1Step reqs R st).students.length +
      (phase1Step reqs R st).holding.length) =
      st.asg.length + (st.students.length + st.holding.length) := by
  unfold phase1Step
  split
  · exact ⟨rfl, rfl⟩
  rename_i hguard
  push_neg at hguard
  obtain ⟨hse, hst⟩ := hguard
  have hmem : st.students.getD (R st.t % st.students.length) "" ∈ st.students :=
    choose_mem _ hst _
  dsimp only
  split
  · rename_i seat hsel
    have hseat := selectSeat_mem_seats hsel
    rw [if_neg hinv.studentsNd.not_mem_erase,
      dictInsert_of_not_mem (hinv.seatsKeys seat hseat)]
    have h1 : (st.seats.erase seat).length + 1 = st.seats.length :=
      List.length_erase_add_one hseat
    have h2 : (st.students.erase _).length + 1 = st.students.length :=
      List.length_erase_add_one hmem
    constructor
    · simp only [List.length_append, List.length_singleton]
      omega
    · simp only [List.length_append, List.length_singleton]
      omega
  · rw [if_pos hmem]
    have h2 : (st.students.erase _).length + 1 = st.students.length :=
      List.length_erase_add_one hmem
    refine ⟨rfl, ?_⟩
    simp only [List.length_append, List.length_singleton]
    omega

theorem phase1_inv {reqs : List (String × List String)} {R : Nat → Nat} :
    ∀ (fuel : Nat) (st : S1), Inv1 st → Inv1 (phase1 reqs R fuel st)
  | 0, _, h => h
  | fuel + 1, _, h => phase1_inv fuel _ (phase1Step_inv h)

theorem phase1_count {reqs : List (String × List String)} {R : Nat → Nat} :
    ∀ (fuel : Nat) (st : S1), Inv1 st →
    (phase1 reqs R fuel st).asg.length + (phase1 reqs R fuel st).seats.length =
      st.asg.length + st.seats.length ∧
    (phase1 reqs R fuel st).asg.length + ((phase1 reqs R fuel st).students.length +
      (phase1 reqs R fuel st).holding.length) =
      st.asg.length + (st.students.length + st.holding.length) := by
  intro fuel
  induction fuel with
  | zero => exact fun st _ => ⟨rfl, rfl⟩
  | succ n ih =>
    intro st hinv
    have hstep := @phase1Step_count reqs R st hinv
    have hrec := ih (phase1Step reqs R st) (phase1Step_inv hinv)
    exact ⟨by rw [phase1]; omega, by rw [phase1]; omega⟩

theorem phase1Step_students_lt {reqs : List (String × List String)} {R : Nat → Nat}
    {st : S1} (hse : st.seats ≠ []) (hst : st.students ≠ []) :
    (phase1Step reqs R st).students.length < st.students.length := by
  unfold phase1Step
  rw [if_neg (not_or.mpr ⟨hse, hst⟩)]
  dsimp only
  set stu := st.students.getD (R st.t % st.students.length) "" with hstu
  have hmem : stu ∈ st.students := choose_mem _ hst _
  have h2 : (st.students.erase stu).length + 1 = st.students.length :=
    List.length_erase_add_one hmem
  split
  · split
    · dsimp only
      have h3 : ((st.students.erase stu).erase stu).length ≤
          (st.students.erase stu).length := List.length_erase_le _ _
      omega
    · dsimp only
      omega
  · rw [if_pos hmem]
    dsimp only
    omega

theorem phase1_of_guard_false {reqs : List (String × List String)} {R : Nat → Nat}
    {st : S1} (h : st.seats = [] ∨ st.students = []) :
    ∀ fuel, phase1 reqs R fuel st = st := by
  intro fuel
  induction fuel with
  | zero => rfl
  | succ n ih =>
    have hstep : phase1Step reqs R st = st := by
      unfold phase1Step
      rw [if_pos h]
    rw [phase1, hstep]
    exact ih

theorem phase1_guard_end {reqs : List (String × List String)} {R : Nat → Nat} :
    ∀ (fuel : Nat) (st : S1), st.students.length ≤ fuel →
    (phase1 reqs R fuel st).seats = [] ∨ (phase1 reqs R fuel st).students = [] := by
  intro fuel
  induction fuel with
  | zero =>
    intro st h
    right
    rw [phase1]
    exact List.eq_nil_of_length_eq_zero (Nat.le_zero.mp h)
  | succ n ih =>
    intro st h
    by_cases hg : st.seats = [] ∨ st.students = []
    · rw [phase1_of_guard_false hg]
      exact hg
    · push_neg at hg
      have hlt := @phase1Step_students_lt reqs R st hg.1 hg.2
      rw [phase1]
      exact ih _ (by omega)

theorem phase2_spec (R : Nat → Nat) :
    ∀ (holding : List String) (st : S2), st.seats.Nodup →
    (∀ s ∈ st.seats, s ∉ keysOf st.asg) →
    ∃ new, (phase2 R holding st).asg = st.asg ++ new ∧
      new.map Prod.snd = holding.take st.seats.length ∧
      (∀ e ∈ new, e.1 ∈ st.seats) := by
  intro holding
  induction holding with
  | nil =>
    intro st _ _
    exact ⟨[], by simp [phase2], by simp, by simp⟩
  | cons x rest ih =>
    intro st h1 h2
    by_cases hs : st.seats = []
    · rw [phase2, if_pos hs]
      obtain ⟨new, hasg, hsnd, hfst⟩ := ih st h1 h2
      have hnil : new = [] := by
        have h0 : List.map Prod.snd new = [] := by
          rw [hsnd, hs]
          simp
        exact List.map_eq_nil_iff.mp h0
      exact ⟨[], by simpa [hnil] using hasg, by simp [hs], by simp⟩
    · rw [phase2, if_neg hs]
      dsimp only
      set seat := st.seats.getD (R st.t % st.seats.length) "" with hseatdef
      have hseat : seat ∈ st.seats := choose_mem _ hs _
      have hfresh : seat ∉ keysOf st.asg := h2 seat hseat
      rw [dictInsert_of_not_mem hfresh]
      have h1e : (st.seats.erase seat).Nodup := h1.erase _
      have h2e : ∀ s ∈ st.seats.erase seat,
          s ∉ keysOf (st.asg ++ [(seat, x)]) := by
        intro s hsmem
        have hs1 : s ∈ st.seats := List.mem_of_mem_erase hsmem
        have hsne : s ≠ seat := (h1.mem_erase_iff.mp hsmem).1
        simp only [keysOf_append, keysOf_single, List.mem_append, List.mem_singleton]
        exact fun hc => hc.elim (h2 s hs1) hsne
      obtain ⟨new1, hasg, hsnd, hfst⟩ :=
        ih { asg := st.asg ++ [(seat, x)], seats := st.seats.erase seat, t := st.t + 1 }
          h1e h2e
      refine ⟨(seat, x) :: new1, ?_, ?_, ?_⟩
      · rw [hasg]
        simp
      · have hlen : (st.seats.erase seat).length + 1 = st.seats.length :=
          List.length_erase_add_one hseat
        rw [← hlen, List.take_succ_cons]
        simp only [List.map_cons]
        rw [hsnd]
      · intro e he
        rcases List.mem_cons.mp he with rfl | he1
        · exact hseat
        · exact List.mem_of_mem_erase (hfst e he1)

theorem phase2_nodup (R : Nat → Nat) :
    ∀ (holding : List String) (st : S2), st.seats.Nodup →
    (∀ s ∈ st.seats, s ∉ keysOf st.asg) →
    (keysOf st.asg).Nodup → (valsOf st.asg).Nodup → holding.Nodup →
    (∀ x ∈ holding, x ∉ valsOf st.asg) →
    (keysOf (phase2 R holding st).asg).Nodup ∧
      (valsOf (phase2 R holding st).asg).Nodup := by
  intro holding
  induction holding with
  | nil =>
    intro st _ _ hk hv _ _
    rw [phase2]
    exact ⟨hk, hv⟩
  | cons x rest ih =>
    intro st h1 h2 hk hv hnd hvals
    by_cases hs : st.seats = []
    · rw [phase2, if_pos hs]
      exact ih st h1 h2 hk hv (List.Nodup.of_cons hnd)
        (fun y hy => hvals y (List.mem_cons_of_mem _ hy))
    · rw [phase2, if_neg hs]
      dsimp only
      set seat := st.seats.getD (R st.t % st.seats.length) "" with hseatdef
      have hseat : seat ∈ st.seats := choose_mem _ hs _
      have hfresh : seat ∉ keysOf st.asg := h2 seat hseat
      rw [dictInsert_of_not_mem hfresh]
      have hxv : x ∉ valsOf st.asg := hvals x (List.mem_cons_self _ _)
      refine ih _ (h1.erase _) ?_ ?_ ?_ (List.Nodup.of_cons hnd) ?_
      · intro s hsmem
        have hs1 : s ∈ st.seats := List.mem_of_mem_erase hsmem
        have hsne : s ≠ seat := (h1.mem_erase_iff.mp hsmem).1
        simp only [keysOf_append, keysOf_single, List.mem_append, List.mem_singleton]
        exact fun hc => hc.elim (h2 s hs1) hsne
      · simp only [keysOf_append, keysOf_single, List.nodup_append, List.nodup_singleton,
          List.disjoint_singleton]
        exact ⟨hk, trivial, hfresh⟩
      · simp only [valsOf_append, valsOf_single, List.nodup_append, List.nodup_singleton,
          List.disjoint_singleton]
        exact ⟨hv, trivial, hxv⟩
      · intro y hy
        have hyv : y ∉ valsOf st.asg := hvals y (List.mem_cons_of_mem _ hy)
        have hyx : y ≠ x := by
          intro hc
          rw [hc] at hy
          exact (List.nodup_cons.mp hnd).1 hy
        simp only [valsOf_append, valsOf_single, List.mem_append, List.mem_singleton]
        exact fun hc => hc.elim hyv hyx

theorem Inv1_init (seats : List String) (reqs : List (String × List String))
    (hs : seats.Nodup) (hk : (reqs.map Prod.fst).Nodup) :
    Inv1 { asg := [], seats := seats, students := reqs.map Prod.fst,
           holding := [], t := 0 } := by
  refine ⟨hs, hk, List.nodup_nil, ?_, ?_, ?_, ?_, ?_, ?_⟩ <;>
    simp [keysOf, valsOf]

/-- Claim C1: the assignment returned by `assign_seats` has exactly
`min |available_seats| |student_requests|` entries. -/
theorem assign_seats_card (available_seats : List String)
    (student_requests : List (String × List String)) (R : Nat → Nat)
    (hseats : available_seats.Nodup)
    (hkeys : (student_requests.map Prod.fst).Nodup)
    (_hprefs : ∀ p ∈ student_requests, p.2.Nodup ∧ ∀ s ∈ p.2, s ∈ available_seats) :
    (assign_seats available_seats student_requests R).length =
      min available_seats.length student_requests.length := by
  unfold assign_seats
  dsimp only
  set st0 : S1 := ⟨[], available_seats, student_requests.map Prod.fst, [], 0⟩ with hst0
  have hinv0 : Inv1 st0 := Inv1_init _ _ hseats hkeys
  have hcount := @phase1_count student_requests R
    (student_requests.map Prod.fst).length st0 hinv0
  set st1 := phase1 student_requests R (student_requests.map Prod.fst).length st0 with hst1
  have hinv1 : Inv1 st1 := phase1_inv _ _ hinv0
  obtain ⟨new, hasg, hsnd, _⟩ := phase2_spec R (st1.holding ++ st1.students)
    ⟨st1.asg, st1.seats, st1.t⟩ hinv1.seatsNd hinv1.seatsKeys
  rw [hasg]
  have hnew : new.length = min st1.seats.length (st1.holding.length + st1.students.length) := by
    have h := congrArg List.length hsnd
    simpa using h
  have hc1 : st1.asg.length + st1.seats.length = available_seats.length := by
    have h := hcount.1
    simpa [hst0] using h
  have hc2 : st1.asg.length + (st1.students.length + st1.holding.length) =
      student_requests.length := by
    have h := hcount.2
    simpa [hst0] using h
  simp only [List.length_append]
  omega

/-- Claim C2: no seat key is repeated and no student value is repeated in the
returned mapping. -/
theorem assign_seats_no_double (available_seats : List String)
    (student_requests : List (String × List String)) (R : Nat → Nat)
    (hseats : available_seats.Nodup)
    (hkeys : (student_requests.map Prod.fst).Nodup) :
    (keysOf (assign_seats available_seats student_requests R)).Nodup ∧
      (valsOf (assign_seats available_seats student_requests R)).Nodup := by
  unfold assign_seats
  dsimp only
  set st0 : S1 := ⟨[], available_seats, student_requests.map Prod.fst, [], 0⟩ with hst0
  have hinv0 : Inv1 st0 := Inv1_init _ _ hseats hkeys
  set st1 := phase1 student_requests R (student_requests.map Prod.fst).length st0 with hst1
  have hinv1 : Inv1 st1 := phase1_inv _ _ hinv0
  refine phase2_nodup R (st1.holding ++ st1.students) ⟨st1.asg, st1.seats, st1.t⟩
    hinv1.seatsNd hinv1.seatsKeys hinv1.keysNd hinv1.valsNd ?_ ?_
  · rw [List.nodup_append]
    refine ⟨hinv1.holdingNd, hinv1.studentsNd, ?_⟩
    intro x hx hc
    exact hinv1.studentsHolding x hc hx
  · intro x hx
    rcases List.mem_append.mp hx with hx1 | hx1
    · exact hinv1.holdingVals x hx1
    · exact hinv1.studentsVals x hx1

theorem phase1Step_students_exact {reqs : List (String × List String)} {R : Nat → Nat}
    {st : S1} (hse : st.seats ≠ []) (hst : st.students ≠ [])
    (hnd : st.students.Nodup) :
    (phase1Step reqs R st).students.length + 1 = st.students.length := by
  unfold phase1Step
  rw [if_neg (not_or.mpr ⟨hse, hst⟩)]
  dsimp only
  set stu := st.students.getD (R st.t % st.students.length) "" with hstu
  have hmem : stu ∈ st.students := choose_mem _ hst _
  have h2 : (st.students.erase stu).length + 1 = st.students.length :=
    List.length_erase_add_one hmem
  split
  · rw [if_neg hnd.not_mem_erase]
    dsimp only
    omega
  · rw [if_pos hmem]
    dsimp only
    omega

theorem phase1_add {reqs : List (String × List String)} {R : Nat → Nat} :
    ∀ (a b : Nat) (st : S1),
    phase1 reqs R (a + b) st = phase1 reqs R b (phase1 reqs R a st) := by
  intro a b st
  induction a generalizing st with
  | zero => rw [Nat.zero_add, phase1]
  | succ n ih =>
    rw [Nat.succ_add, phase1, phase1, ih]

theorem phase1_stable {reqs : List (String × List String)} {R : Nat → Nat}
    (fuel : Nat) (st : S1) (h : st.students.length ≤ fuel) :
    phase1 reqs R fuel st = phase1 reqs R st.students.length st := by
  obtain ⟨d, rfl⟩ : ∃ d, fuel = st.students.length + d :=
    ⟨fuel - st.students.length, by omega⟩
  rw [phase1_add]
  exact phase1_of_guard_false (phase1_guard_end _ _ le_rfl) d

/-- Claim C5: each genuine Phase-1 iteration removes exactly one student, so
`|students|` iterations run the loop to completion, and Phase 2 is a single
left-to-right pass over the holding list. -/
theorem assign_seats_terminates :
    (∀ (reqs : List (String × List String)) (R : Nat → Nat) (st : S1),
      st.seats ≠ [] → st.students ≠ [] → st.students.Nodup →
      (phase1Step reqs R st).students.length + 1 = st.students.length)
    ∧ (∀ (reqs : List (String × List String)) (R : Nat → Nat) (fuel : Nat) (st : S1),
      st.students.length ≤ fuel →
      phase1 reqs R fuel st = phase1 reqs R st.students.length st)
    ∧ (∀ (R : Nat → Nat) (h1 h2 : List String) (st : S2),
      phase2 R (h1 ++ h2) st = phase2 R h2 (phase2 R h1 st)) := by
  refine ⟨fun reqs R st hse hst hnd => phase1Step_students_exact hse hst hnd,
    fun reqs R fuel st h => phase1_stable fuel st h, fun R h1 h2 st => ?_⟩
  induction h1 generalizing st with
  | nil => rw [List.nil_append, phase2]
  | cons x rest ih =>
    rw [List.cons_append, phase2, phase2]
    by_cases hs : st.seats = []
    · rw [if_pos hs, if_pos hs, ih]
    · rw [if_neg hs, if_neg hs, ih]

/-- Claim C6: the Phase-1 scan is first-fit by rank — the seat assigned is the
highest-ranked preference still unassigned — and a single student whose top
preference is available receives exactly that seat. -/
theorem assign_seats_first_fit :
    (∀ (prefs seats : List String) (seat : String),
      selectSeat prefs seats = some seat →
      seat ∈ seats ∧ ∃ l1 l2, prefs = l1 ++ seat :: l2 ∧ ∀ p ∈ l1, p ∉ seats)
    ∧ (∀ (seats : List String) (R : Nat → Nat) (name p : String) (rest : List String),
      p ∈ seats →
      assign_seats seats [(name, p :: rest)] R = [(p, name)]) := by
  constructor
  · intro prefs seats seat h
    exact ⟨selectSeat_mem_seats h, selectSeat_first h⟩
  · intro seats R name p rest hp
    have hne : seats ≠ [] := List.ne_nil_of_mem hp
    simp [assign_seats, phase1, phase1Step, phase2, selectSeat, dictGet, dictInsert,
      Nat.mod_one, hp, hne, keysOf]

/-- Claim C7: Phase 2 serves the holding pool in insertion order — with `r` seats
left and more than `r` held students, the first `r` students in holding
order each get one of the remaining seats and the students after them get
nothing. -/
theorem phase2_fifo (R : Nat → Nat) (st : S2) (holding : List String)
    (hnd : st.seats.Nodup) (hfresh : ∀ s ∈ st.seats, s ∉ keysOf st.asg)
    (hhold : holding.Nodup) (_hlen : st.seats.length < holding.length) :
    ∃ new, (phase2 R holding st).asg = st.asg ++ new ∧
      new.map Prod.snd = holding.take st.seats.length ∧
      (∀ e ∈ new, e.1 ∈ st.seats) ∧
      (∀ x ∈ holding.drop st.seats.length, x ∉ new.map Prod.snd) := by
  obtain ⟨new, h1, h2, h3⟩ := phase2_spec R holding st hnd hfresh
  refine ⟨new, h1, h2, h3, ?_⟩
  intro x hxdrop hxnew
  rw [h2] at hxnew
  exact (List.disjoint_take_drop hhold le_rfl) hxnew hxdrop

theorem phase1Step_bounds {reqs : List (String × List String)} {R : Nat → Nat}
    {st : S1} {avail keys0 : List String}
    (hasg : ∀ e ∈ st.asg, e.1 ∈ avail ∧ e.2 ∈ keys0)
    (hseats : ∀ s ∈ st.seats, s ∈ avail)
    (hstud : ∀ x ∈ st.students, x ∈ keys0)
    (hhold : ∀ x ∈ st.holding, x ∈ keys0) :
    (∀ e ∈ (phase1Step reqs R st).asg, e.1 ∈ avail ∧ e.2 ∈ keys0) ∧
    (∀ s ∈ (phase1Step reqs R st).seats, s ∈ avail) ∧
    (∀ x ∈ (phase1Step reqs R st).students, x ∈ keys0) ∧
    (∀ x ∈ (phase1Step reqs R st).holding, x ∈ keys0) := by
  unfold phase1Step
  split
  · exact ⟨hasg, hseats, hstud, hhold⟩
  rename_i hguard
  push_neg at hguard
  obtain ⟨hse, hst⟩ := hguard
  dsimp only
  set stu := st.students.getD (R st.t % st.students.length) "" with hstu
  have hmem : stu ∈ st.students := choose_mem _ hst _
  have hstuk : stu ∈ keys0 := hstud stu hmem
  split
  · rename_i seat hsel
    have hseat : seat ∈ st.seats := selectSeat_mem_seats hsel
    have hasg1 : ∀ e ∈ dictInsert st.asg seat stu, e.1 ∈ avail ∧ e.2 ∈ keys0 := by
      intro e he
      rcases dictInsert_mem he with he1 | rfl
      · exact hasg e he1
      · exact ⟨hseats seat hseat, hstuk⟩
    split
    · exact ⟨hasg1, fun s hs => hseats s (List.erase_subset _ _ hs),
        fun x hx => hstud x (List.erase_subset _ _ (List.erase_subset _ _ hx)),
        fun x hx => (List.mem_append.mp hx).elim (hhold x)
          (fun hx1 => (List.mem_singleton.mp hx1) ▸ hstuk)⟩
    · exact ⟨hasg1, fun s hs => hseats s (List.erase_subset _ _ hs),
        fun x hx => hstud x (List.erase_subset _ _ hx), hhold⟩
  · rw [if_pos hmem]
    exact ⟨hasg, hseats, fun x hx => hstud x (List.erase_subset _ _ hx),
      fun x hx => (List.mem_append.mp hx).elim (hhold x)
        (fun hx1 => (List.mem_singleton.mp hx1) ▸ hstuk)⟩

theorem phase1_bounds {reqs : List (String × List String)} {R : Nat → Nat}
    {avail keys0 : List String} :
    ∀ (fuel : Nat) (st : S1),
    (∀ e ∈ st.asg, e.1 ∈ avail ∧ e.2 ∈ keys0) →
    (∀ s ∈ st.seats, s ∈ avail) →
    (∀ x ∈ st.students, x ∈ keys0) →
    (∀ x ∈ st.holding, x ∈ keys0) →
    (∀ e ∈ (phase1 reqs R fuel st).asg, e.1 ∈ avail ∧ e.2 ∈ keys0) ∧
    (∀ s ∈ (phase1 reqs R fuel st).seats, s ∈ avail) ∧
    (∀ x ∈ (phase1 reqs R fuel st).students, x ∈ keys0) ∧
    (∀ x ∈ (phase1 reqs R fuel st).holding, x ∈ keys0) := by
  intro fuel
  induction fuel with
  | zero => exact fun st h1 h2 h3 h4 => ⟨h1, h2, h3, h4⟩
  | succ n ih =>
    intro st h1 h2 h3 h4
    have hstep := @phase1Step_bounds reqs R st avail keys0 h1 h2 h3 h4
    rw [phase1]
    exact ih _ hstep.1 hstep.2.1 hstep.2.2.1 hstep.2.2.2

theorem phase2_bounds {R : Nat → Nat} {avail keys0 : List String} :
    ∀ (holding : List String) (st : S2),
    (∀ e ∈ st.asg, e.1 ∈ avail ∧ e.2 ∈ keys0) →
    (∀ s ∈ st.seats, s ∈ avail) →
    (∀ x ∈ holding, x ∈ keys0) →
    ∀ e ∈ (phase2 R holding st).asg, e.1 ∈ avail ∧ e.2 ∈ keys0 := by
  intro holding
  induction holding with
  | nil => exact fun st h1 _ _ => by rw [phase2]; exact h1
  | cons x rest ih =>
    intro st h1 h2 h3
    rw [phase2]
    by_cases hs : st.seats = []
    · rw [if_pos hs]
      exact ih st h1 h2 (fun y hy => h3 y (List.mem_cons_of_mem _ hy))
    · rw [if_neg hs]
      dsimp only
      set seat := st.seats.getD (R st.t % st.seats.length) "" with hseatdef
      have hseat : seat ∈ st.seats := choose_mem _ hs _
      refine ih _ ?_ (fun s hsm => h2 s (List.erase_subset _ _ hsm))
        (fun y hy => h3 y (List.mem_cons_of_mem _ hy))
      intro e he
      rcases dictInsert_mem he with he1 | rfl
      · exact h1 e he1
      · exact ⟨h2 seat hseat, h3 x (List.mem_cons_self _ _)⟩

/-- Claim C9: even on inputs violating the documented precondition, every key of
the returned mapping is an available seat and every value is a requesting
student. -/
theorem assign_seats_mem_bounds (available_seats : List String)
    (student_requests : List (String × List String)) (R : Nat → Nat)
    (e : String × String)
    (he : e ∈ assign_seats available_seats student_requests R) :
    e.1 ∈ available_seats ∧ e.2 ∈ student_requests.map Prod.fst := by
  unfold assign_seats at he
  dsimp only at he
  set st0 : S1 := ⟨[], available_seats, student_requests.map Prod.fst, [], 0⟩ with hst0
  have h0 := @phase1_bounds student_requests R available_seats
    (student_requests.map Prod.fst)
    (student_requests.map Prod.fst).length st0
    (by intro x hx; simp [hst0] at hx) (fun s hs => hs) (fun x hx => hx)
    (by intro x hx; simp [hst0] at hx)
  set st1 := phase1 student_requests R (student_requests.map Prod.fst).length st0 with hst1
  refine phase2_bounds (st1.holding ++ st1.students) ⟨st1.asg, st1.seats, st1.t⟩
    h0.1 h0.2.1 ?_ e he
  intro x hx
  rcases List.mem_append.mp hx with hx1 | hx1
  · exact h0.2.2.2 x hx1
  · exact h0.2.2.1 x hx1

/-! ### The checked engine: every fallible Python operation made explicit -/

/-- `random.choice(l)`: raises `IndexError` on an empty list. -/
def choiceE (l : List String) (k : Nat) : Option String :=
  if l = [] then none else some (l.getD (k % l.length) "")

/-- `l.remove(x)`: raises `ValueError` when `x` is absent. -/
def removeE (l : List String) (x : String) : Option (List String) :=
  if x ∈ l then some (l.erase x) else none

/-- The checked Phase-1 loop body: `none` exactly when some operation of the
body would raise. -/
def phase1StepE (reqs : List (String × List String)) (R : Nat → Nat) (st : S1) :
    Option S1 :=
  if st.seats = [] ∨ st.students = [] then some st
  else
    (choiceE st.students (R st.t)).bind fun student =>
    -- student_requests[student] raises KeyError when the key is missing
    (dictGet reqs student).bind fun prefs =>
    match selectSeat prefs st.seats with
    | some seat =>
        (removeE st.seats seat).bind fun seats1 =>
        (removeE st.students student).bind fun students1 =>
        if student ∈ students1 then
          (removeE students1 student).bind fun students2 =>
          some { asg := dictInsert st.asg seat student, seats := seats1,
                 students := students2, holding := st.holding ++ [student],
                 t := st.t + 1 }
        else
          some { asg := dictInsert st.asg seat student, seats := seats1,
                 students := students1, holding := st.holding, t := st.t + 1 }
    | none =>
        if student ∈ st.students then
          (removeE st.students student).bind fun students1 =>
          some { asg := st.asg, seats := st.seats, students := students1,
                 holding := st.holding ++ [student], t := st.t + 1 }
        else some st

def phase1E (reqs : List (String × List String)) (R : Nat → Nat) :
    Nat → S1 → Option S1
  | 0, st => some st
  | fuel + 1, st => (phase1StepE reqs R st).bind (phase1E reqs R fuel)

def phase2E (R : Nat → Nat) : List String → S2 → Option S2
  | [], st => some st
  | student :: rest, st =>
    if st.seats = [] then phase2E R rest st
    else
      (choiceE st.seats (R st.t)).bind fun seat =>
      (removeE st.seats seat).bind fun seats1 =>
      phase2E R rest { asg := dictInsert st.asg seat student, seats := seats1,
                       t := st.t + 1 }

/-- The checked engine: `none` exactly when the Python function would raise. -/
def assign_seatsE (available_seats : List String)
    (student_requests : List (String × List String)) (R : Nat → Nat) :
    Option (List (String × String)) :=
  let students := student_requests.map Prod.fst
  (phase1E student_requests R students.length
      { asg := [], seats := available_seats, students := students,
        holding := [], t := 0 }).bind fun st1 =>
  (phase2E R (st1.holding ++ st1.students)
      { asg := st1.asg, seats := st1.seats, t := st1.t }).map S2.asg

theorem phase1StepE_eq {reqs : List (String × List String)} {R : Nat → Nat}
    {st : S1} (hsub : ∀ x ∈ st.students, x ∈ reqs.map Prod.fst) :
    phase1StepE reqs R st = some (phase1Step reqs R st) := by
  unfold phase1StepE phase1Step
  split
  · rfl
  rename_i hguard
  push_neg at hguard
  obtain ⟨hse, hst⟩ := hguard
  dsimp only
  set stu := st.students.getD (R st.t % st.students.length) "" with hstu
  have hmem : stu ∈ st.students := choose_mem _ hst _
  have hch : choiceE st.students (R st.t) = some stu := by
    rw [choiceE, if_neg hst]
  rw [hch, Option.some_bind]
  obtain ⟨prefs, hprefs⟩ := dictGet_eq_some_of_mem (hsub stu hmem)
  rw [hprefs, Option.some_bind, Option.getD_some]
  split
  · rename_i seat hsel
    have hseat : seat ∈ st.seats := selectSeat_mem_seats hsel
    rw [removeE, if_pos hseat, Option.some_bind, removeE, if_pos hmem,
      Option.some_bind]
    split
    · rename_i hdup
      rw [removeE, if_pos hdup, Option.some_bind]
    · rfl
  · simp only [if_pos hmem]
    rw [removeE, if_pos hmem, Option.some_bind]

theorem phase1Step_students_sub {reqs : List (String × List String)} {R : Nat → Nat}
    {st : S1} : ∀ x ∈ (phase1Step reqs R st).students, x ∈ st.students := by
  unfold phase1Step
  split
  · exact fun x hx => hx
  dsimp only
  split
  · split
    · exact fun x hx => List.erase_subset _ _ (List.erase_subset _ _ hx)
    · exact fun x hx => List.erase_subset _ _ hx
  · split
    · exact fun x hx => List.erase_subset _ _ hx
    · exact fun x hx => hx

theorem phase1E_eq {reqs : List (String × List String)} {R : Nat → Nat} :
    ∀ (fuel : Nat) (st : S1), (∀ x ∈ st.students, x ∈ reqs.map Prod.fst) →
    phase1E reqs R fuel st = some (phase1 reqs R fuel st) := by
  intro fuel
  induction fuel with
  | zero => exact fun st _ => rfl
  | succ n ih =>
    intro st hsub
    rw [phase1E, phase1, phase1StepE_eq hsub, Option.some_bind]
    exact ih _ (fun x hx => hsub x (phase1Step_students_sub x hx))

theorem phase2E_eq {R : Nat → Nat} :
    ∀ (holding : List String) (st : S2),
    phase2E R holding st = some (phase2 R holding st) := by
  intro holding
  induction holding with
  | nil => exact fun st => rfl
  | cons x rest ih =>
    intro st
    rw [phase2E, phase2]
    by_cases hs : st.seats = []
    · rw [if_pos hs, if_pos hs]
      exact ih st
    · rw [if_neg hs, if_neg hs]
      dsimp only
      set seat := st.seats.getD (R st.t % st.seats.length) "" with hseatdef
      have hseat : seat ∈ st.seats := choose_mem _ hs _
      rw [choiceE, if_neg hs, Option.some_bind, removeE, if_pos hseat,
        Option.some_bind]
      exact ih _

/-- Claim C4: the engine never raises — on every input (empty collections included)
the checked run succeeds and returns exactly the assignment of the ideal
run. -/
theorem assign_seats_total (available_seats : List String)
    (student_requests : List (String × List String)) (R : Nat → Nat) :
    assign_seatsE available_seats student_requests R =
      some (assign_seats available_seats student_requests R) := by
  unfold assign_seatsE assign_seats
  dsimp only
  rw [phase1E_eq _ _ (fun x hx => hx), Option.some_bind, phase2E_eq]
  rfl

/-! ### Frame: the inputs pass through a run untouched -/

/-- The two heap objects the caller passes to `assign_seats`.  In the source,
every mutating statement acts on the locals `seats` (built with
`list(available_seats.copy())`), `students` (a fresh list of the dict's keys),
`holding` and `seat_assignments`; the two inputs are only read. -/
structure Heap where
  available_seats : List String
  student_requests : List (String × List String)

/-- A whole call with the caller's heap threaded through: the result pairs the
final state of the two input objects with the returned assignment. -/
def assign_seats_run (h : Heap) (R : Nat → Nat) :
    Heap × List (String × String) :=
  let students := h.student_requests.map Prod.fst
  let st1 := phase1 h.student_requests R students.length
    { asg := [], seats := h.available_seats, students := students,
      holding := [], t := 0 }
  let st2 := phase2 R (st1.holding ++ st1.students)
    { asg := st1.asg, seats := st1.seats, t := st1.t }
  (h, st2.asg)

/-- Claim C8: a call leaves the `available_seats` set and the `student_requests`
mapping exactly as they were; the only observable outcome is the returned
mapping. -/
theorem assign_seats_frame (h : Heap) (R : Nat → Nat) :
    assign_seats_run h R =
      (h, assign_seats h.available_seats h.student_requests R) := rfl

/-! ### The seat loader on blank lines -/

theorem pyStrip_eq_empty {s : String} (h : ∀ c ∈ s.data, isPySpace c) :
    pyStrip s = "" := by
  unfold pyStrip
  rw [List.dropWhile_eq_nil_iff.mpr (fun c hc => h c hc)]
  rfl

theorem mem_foldl_setInsert (lines : List String) :
    ∀ (acc : List String) (x : String), x ∈ acc →
    x ∈ lines.foldl (fun a l => setInsert a (pyStrip l)) acc := by
  induction lines with
  | nil => exact fun acc x hx => hx
  | cons m rest ih =>
    intro acc x hx
    rw [List.foldl_cons]
    refine ih _ x ?_
    unfold setInsert
    split
    · exact hx
    · exact List.mem_append_left _ hx

theorem pyStrip_mem_load (lines : List String) :
    ∀ (acc : List String) (l : String), l ∈ lines →
    pyStrip l ∈ lines.foldl (fun a s => setInsert a (pyStrip s)) acc := by
  induction lines with
  | nil => intro acc l hl; simp at hl
  | cons m rest ih =>
    intro acc l hl
    rw [List.foldl_cons]
    rcases List.mem_cons.mp hl with rfl | hl1
    · refine mem_foldl_setInsert rest _ _ ?_
      unfold setInsert
      split
      · assumption
      · exact List.mem_append_right _ (List.mem_singleton_self _)
    · exact ih _ l hl1

/-- Claim C10: a blank or whitespace-only line in the seat file puts the empty
string into the returned seat set, so it becomes an assignable seat. -/
theorem load_available_seats_blank (lines : List String) (l : String)
    (hl : l ∈ lines) (hws : ∀ c ∈ l.data, isPySpace c) :
    "" ∈ load_available_seats lines := by
  have h := pyStrip_mem_load lines [] l hl
  rwa [pyStrip_eq_empty hws] at h

/-! ### The end-to-end example -/

/-- The request mapping of the worked example: Alice wants seat 2 then seat 1,
Bob wants seat 1, Carol has no preference. -/
def c3reqs : List (String × List String) :=
  [("Alice", ["2", "1"]), ("Bob", ["1"]), ("Carol", [])]

theorem perm_c3seats (l : List String) (h : l.Perm ["1", "2", "3"]) :
    l = ["1", "2", "3"] ∨ l = ["1", "3", "2"] ∨ l = ["2", "1", "3"] ∨
    l = ["2", "3", "1"] ∨ l = ["3", "1", "2"] ∨ l = ["3", "2", "1"] := by
  have hlen : l.length = 3 := by simpa using h.length_eq
  match l, hlen with
  | [x, y, z], _ =>
    have hx : x = "1" ∨ x = "2" ∨ x = "3" := by
      have := h.subset (show x ∈ [x, y, z] by simp)
      simpa using this
    have hy : y = "1" ∨ y = "2" ∨ y = "3" := by
      have := h.subset (show y ∈ [x, y, z] by simp)
      simpa using this
    have hz : z = "1" ∨ z = "2" ∨ z = "3" := by
      have := h.subset (show z ∈ [x, y, z] by simp)
      simpa using this
    rcases hx with rfl | rfl | rfl <;> rcases hy with rfl | rfl | rfl <;>
      rcases hz with rfl | rfl | rfl <;> revert h <;> decide

theorem c3_run (seatsL : List String) (hperm : seatsL.Perm ["1", "2", "3"])
    (R : Nat → Nat) :
    (assign_seats seatsL c3reqs R).Perm
      [("2", "Alice"), ("1", "Bob"), ("3", "Carol")] := by
  have h0 : R 0 % 3 = 0 ∨ R 0 % 3 = 1 ∨ R 0 % 3 = 2 := by omega
  have h1 : R 1 % 2 = 0 ∨ R 1 % 2 = 1 := by omega
  rcases perm_c3seats seatsL hperm with rfl | rfl | rfl | rfl | rfl | rfl <;>
    rcases h0 with h0 | h0 | h0 <;> rcases h1 with h1 | h1 <;>
    simp [assign_seats, c3reqs, phase1, phase1Step, phase2, selectSeat, dictInsert,
      dictGet, h0, h1, Nat.mod_one] <;> decide

/-- Claim C3: on seats `{1,2,3}` with Alice preferring 2 then 1, Bob preferring 1
and Carol indifferent, every run assigns all three students, Alice gets seat
2 or seat 1 but never both, and Carol gets the seat left over after Alice and
Bob. -/
theorem assign_seats_example (seatsL : List String) (R : Nat → Nat)
    (hperm : seatsL.Perm ["1", "2", "3"]) :
    (assign_seats seatsL c3reqs R).length = 3 ∧
    (("2", "Alice") ∈ assign_seats seatsL c3reqs R ∨
      ("1", "Alice") ∈ assign_seats seatsL c3reqs R) ∧
    ¬(("2", "Alice") ∈ assign_seats seatsL c3reqs R ∧
      ("1", "Alice") ∈ assign_seats seatsL c3reqs R) ∧
    ∃ s, (s, "Carol") ∈ assign_seats seatsL c3reqs R ∧
      (∀ u, (u, "Alice") ∈ assign_seats seatsL c3reqs R → u ≠ s) ∧
      (∀ u, (u, "Bob") ∈ assign_seats seatsL c3reqs R → u ≠ s) := by
  have hrun := c3_run seatsL hperm R
  have hmem : ∀ e : String × String, e ∈ assign_seats seatsL c3reqs R ↔
      e ∈ [("2", "Alice"), ("1", "Bob"), ("3", "Carol")] := fun e => hrun.mem_iff
  refine ⟨by rw [hrun.length_eq]; rfl, Or.inl ((hmem _).mpr (by simp)), ?_, ?_⟩
  · rintro ⟨-, h1mem⟩
    have := (hmem _).mp h1mem
    simp at this
  · refine ⟨"3", (hmem _).mpr (by simp), ?_, ?_⟩
    · intro u hu
      have := (hmem _).mp hu
      simp at this
      rw [this]
      decide
    · intro u hu
      have := (hmem _).mp hu
      simp at this
      rw [this]
      decide

/-! ### Concrete witnesses -/

theorem assign_seats_card_witness :
    ((["1", "2"] : List String).Nodup ∧
      (([("A", ["2"]), ("B", [])] : List (String × List String)).map Prod.fst).Nodup) ∧
    (assign_seats ["1", "2"] [("A", ["2"]), ("B", [])] (fun _ => 0)).length = 2 :=
  ⟨⟨by decide, by decide⟩,
    assign_seats_card ["1", "2"] [("A", ["2"]), ("B", [])] (fun _ => 0)
      (by decide) (by decide) (by decide)⟩

theorem assign_seats_no_double_witness :
    (["1", "2"] : List String).Nodup ∧
    (keysOf (assign_seats ["1", "2"] [("A", ["2"]), ("B", ["2"])] (fun _ => 0))).Nodup ∧
    (valsOf (assign_seats ["1", "2"] [("A", ["2"]), ("B", ["2"])] (fun _ => 0))).Nodup :=
  ⟨by decide,
    assign_seats_no_double ["1", "2"] [("A", ["2"]), ("B", ["2"])] (fun _ => 0)
      (by decide) (by decide)⟩

theorem assign_seats_example_witness :
    (["3", "1", "2"] : List String).Perm ["1", "2", "3"] ∧
    (assign_seats ["3", "1", "2"] c3reqs (fun t => t + 4)).length = 3 :=
  ⟨by decide, (assign_seats_example ["3", "1", "2"] (fun t => t + 4) (by decide)).1⟩

theorem assign_seats_terminates_witness :
    ((["1"] : List String) ≠ [] ∧ (["A"] : List String).Nodup) ∧
    (phase1Step [("A", [])] (fun _ => 0)
      { asg := [], seats := ["1"], students := ["A"], holding := [],
        t := 0 }).students.length + 1 = 1 :=
  ⟨⟨by decide, by decide⟩,
    assign_seats_terminates.1 [("A", [])] (fun _ => 0)
      { asg := [], seats := ["1"], students := ["A"], holding := [], t := 0 }
      (by decide) (by decide) (by decide)⟩

theorem assign_seats_first_fit_witness :
    ("5" : String) ∈ (["4", "5"] : List String) ∧
    assign_seats ["4", "5"] [("A", ["5", "4"])] (fun _ => 0) = [("5", "A")] :=
  ⟨by decide,
    assign_seats_first_fit.2 ["4", "5"] (fun _ => 0) "A" "5" ["4"] (by decide)⟩

theorem phase2_fifo_witness :
    ((["1"] : List String).Nodup ∧ (["A", "B"] : List String).Nodup ∧ 1 < 2) ∧
    ∃ new, (phase2 (fun _ => 0) ["A", "B"]
        { asg := [], seats := ["1"], t := 0 }).asg = [] ++ new ∧
      new.map Prod.snd = ["A"] ∧
      (∀ e ∈ new, e.1 ∈ (["1"] : List String)) ∧
      (∀ x ∈ (["A", "B"] : List String).drop 1, x ∉ new.map Prod.snd) :=
  ⟨⟨by decide, by decide, by decide⟩,
    phase2_fifo (fun _ => 0) { asg := [], seats := ["1"], t := 0 } ["A", "B"]
      (by decide) (by decide) (by decide) (by decide)⟩

theorem assign_seats_mem_bounds_witness :
    (("1", "A") ∈ assign_seats ["1"] [("A", ["1", "1", "9"])] (fun _ => 0)) ∧
    ("1", "A").1 ∈ (["1"] : List String) ∧
    ("1", "A").2 ∈ ([("A", ["1", "1", "9"])] : List (String × List String)).map Prod.fst :=
  ⟨by decide,
    assign_seats_mem_bounds ["1"] [("A", ["1", "1", "9"])] (fun _ => 0) ("1", "A")
      (by decide)⟩

theorem load_available_seats_blank_witness :
    ((" " : String) ∈ ([" ", "7"] : List String) ∧
      ∀ c ∈ (" " : String).data, isPySpace c) ∧
    "" ∈ load_available_seats [" ", "7"] :=
  ⟨⟨by decide, by decide⟩,
    load_available_seats_blank [" ", "7"] " " (by decide) (by decide)⟩
